import Mathlib
/-!
Formal model of the core of `arxiv_scraper.py`: the paper record type, the
merge engine (`merge_papers`), the retention filter (`prune_old_papers`) and
the LaTeX-to-HTML text normalizer (`process_latex_text`).  Each definition is
a direct translation of the corresponding Python code; machine-level details
(Python `str` comparison, `datetime.fromisoformat`, `re.sub` scanning) are
modelled explicitly below, with comments naming the Python construct.
-/

/-! ### Python string comparison

Python compares strings lexicographically by Unicode code point, with a
proper prefix ordered before any extension.  `lexLt` is that strict order on
the character lists underlying strings. -/

/-- Strict lexicographic order on char lists by code point (Python `<` on `str`). -/
def lexLt : List Char → List Char → Bool
  | [], [] => false
  | [], _ :: _ => true
  | _ :: _, [] => false
  | a :: as, b :: bs =>
    if a.toNat < b.toNat then true
    else if b.toNat < a.toNat then false
    else lexLt as bs

/-- Python `s < t` on strings. -/
def strLt (s t : String) : Bool := lexLt s.data t.data

theorem lexLt_asymm : ∀ {x y : List Char}, lexLt x y = true → lexLt y x = false
  | [], [], h => by simp [lexLt] at h
  | [], _ :: _, _ => by simp [lexLt]
  | _ :: _, [], h => by simp [lexLt] at h
  | a :: as, b :: bs, h => by
    simp only [lexLt] at h ⊢
    rcases Nat.lt_trichotomy a.toNat b.toNat with hab | hab | hab
    · simp [hab, Nat.lt_asymm hab]
    · simp only [hab, Nat.lt_irrefl, if_false] at h ⊢
      exact lexLt_asymm h
    · simp [hab, Nat.lt_asymm hab] at h

theorem lexLt_false_trans :
    ∀ {x y z : List Char}, lexLt x y = false → lexLt y z = false → lexLt x z = false
  | _, [], [], _, _ => by cases ‹List Char› <;> simp_all [lexLt]
  | x, y :: ys, [], hxy, hyz => by cases x <;> simp [lexLt]
  | x, [], z :: zs, hxy, hyz => by simp [lexLt] at hyz
  | [], y :: ys, z :: zs, hxy, hyz => by simp [lexLt] at hxy
  | x :: xs, y :: ys, z :: zs, hxy, hyz => by
    simp only [lexLt] at hxy hyz ⊢
    rcases Nat.lt_trichotomy x.toNat y.toNat with h1 | h1 | h1
    · simp [h1] at hxy
    · rcases Nat.lt_trichotomy y.toNat z.toNat with h2 | h2 | h2
      · simp [h2] at hyz
      · have hxz : x.toNat = z.toNat := h1.trans h2
        simp only [h1, h2, hxz, Nat.lt_irrefl, if_false] at hxy hyz ⊢
        exact lexLt_false_trans hxy hyz
      · have : ¬ x.toNat < z.toNat := by omega
        simp only [this, if_false]
        by_cases h3 : z.toNat < x.toNat
        · simp [h3]
        · have hxz : x.toNat = z.toNat := by omega
          omega
    · rcases Nat.lt_trichotomy y.toNat z.toNat with h2 | h2 | h2
      · simp [h2] at hyz
      · have : ¬ x.toNat < z.toNat := by omega
        have h3 : z.toNat < x.toNat := by omega
        simp [this, h3]
      · have : ¬ x.toNat < z.toNat := by omega
        have h3 : z.toNat < x.toNat := by omega
        simp [this, h3]

/-! ### The paper record (`class ArxivPaper`)

Fields exactly as stored by `ArxivPaper.__init__` / `to_dict`; the derived
`arxiv_url` / `pdf_url` strings are functions of `arxiv_id` and are omitted.
Timestamps are kept as the raw strings the code stores and compares. -/

structure ArxivPaper where
  title : String
  authors : List String
  abstract : String
  arxiv_id : String
  published : String
  updated : String
  categories : List String
deriving DecidableEq

/-- The ids of a list of papers, in order. -/
def keysOf (l : List ArxivPaper) : List String := l.map (fun p => p.arxiv_id)

/-- Lookup in the id-keyed dict (`papers_dict[id]`), modelled on the
association list that represents the insertion-ordered Python dict. -/
def findPaper (l : List ArxivPaper) (x : String) : Option ArxivPaper :=
  l.find? (fun q => q.arxiv_id == x)

/-- Python dict assignment `papers_dict[p.arxiv_id] = p`: replace in place if
the key is present (keeping its position), otherwise append. -/
def setPaper : List ArxivPaper → ArxivPaper → List ArxivPaper
  | [], p => [p]
  | q :: t, p => if q.arxiv_id = p.arxiv_id then p :: t else q :: setPaper t p

/-- One iteration of the `for new_paper in new_papers` loop of `merge_papers`:
insert if the id is absent; replace if the incoming `updated` is strictly
greater (Python `new_paper.updated > existing.updated`); otherwise discard. -/
def mergeStep (d : List ArxivPaper) (np : ArxivPaper) : List ArxivPaper :=
  match findPaper d np.arxiv_id with
  | none => d ++ [np]
  | some ex => if strLt ex.updated np.updated then setPaper d np else d

/-- `laterPub a b` holds when `a` may precede `b` in the output order:
`b.published <= a.published` (descending by publication date).  Python's
stable `list.sort(key=..., reverse=True)` equals insertion sort with this
non-strict relation. -/
def laterPub (a b : ArxivPaper) : Prop := strLt a.published b.published = false

instance : DecidableRel laterPub := fun a b =>
  inferInstanceAs (Decidable (strLt a.published b.published = false))

instance : IsTotal ArxivPaper laterPub :=
  ⟨fun a b => by
    by_cases h : strLt a.published b.published = true
    · exact Or.inr (lexLt_asymm h)
    · exact Or.inl (by simpa using h)⟩

instance : IsTrans ArxivPaper laterPub :=
  ⟨fun _ _ _ hab hbc => lexLt_false_trans hab hbc⟩

/-- `merge_papers(existing_papers, new_papers)`: seed an insertion-ordered
dict from `existing_papers`, fold the incoming batch through `mergeStep`, then
sort the dict's values by `published` descending (stably). -/
def merge_papers (existing_papers new_papers : List ArxivPaper) : List ArxivPaper :=
  List.insertionSort laterPub
    (List.foldl mergeStep (List.foldl setPaper [] existing_papers) new_papers)

/-! ## Concrete records used in witnesses and counterexamples -/

def cxFreshE : ArxivPaper :=
  ⟨"Existing", ["A. Author"], "old", "2401.00001",
    "2024-01-01T00:00:00Z", "2024-01-01T00:00:00Z", ["gr-qc"]⟩

def cxFreshR : ArxivPaper :=
  ⟨"Incoming v2", ["A. Author"], "v2", "2401.00001",
    "2024-01-01T00:00:00Z", "2024-02-01T00:00:00Z", ["gr-qc"]⟩

def cxFreshR2 : ArxivPaper :=
  ⟨"Incoming v3", ["A. Author"], "v3", "2401.00001",
    "2024-01-01T00:00:00Z", "2024-03-01T00:00:00Z", ["gr-qc"]⟩

def wFreshE : ArxivPaper :=
  ⟨"Stored", [], "", "2402.11111", "2024-02-01T00:00:00Z", "2024-02-01T00:00:00Z", []⟩

def wFreshR : ArxivPaper :=
  ⟨"Fetched", [], "", "2402.11111", "2024-02-01T00:00:00Z", "2024-02-20T00:00:00Z", []⟩

def cxStaleE : ArxivPaper :=
  ⟨"Existing newer", [], "", "2403.00003",
    "2024-03-01T00:00:00Z", "2024-03-20T00:00:00Z", []⟩

def cxStaleR : ArxivPaper :=
  ⟨"Incoming stale", [], "", "2403.00003",
    "2024-03-01T00:00:00Z", "2024-03-10T00:00:00Z", []⟩

def cxStaleR2 : ArxivPaper :=
  ⟨"Incoming fresher", [], "", "2403.00003",
    "2024-03-01T00:00:00Z", "2024-04-01T00:00:00Z", []⟩

def wStaleE : ArxivPaper :=
  ⟨"Stored newer", [], "", "2404.22222", "2024-04-01T00:00:00Z", "2024-04-15T00:00:00Z", []⟩

def wStaleR : ArxivPaper :=
  ⟨"Fetched stale", [], "", "2404.22222", "2024-04-01T00:00:00Z", "2024-04-05T00:00:00Z", []⟩

def wFabP : ArxivPaper :=
  ⟨"Solo", [], "", "2405.33333", "2024-05-01T00:00:00Z", "2024-05-01T00:00:00Z", []⟩

/-! ### Retention filter (`prune_old_papers`)

The Python code computes `cutoff_date = datetime.now() - timedelta(days=max_age_days)`
and keeps a paper iff
`datetime.fromisoformat(paper.published.replace('Z', '+00:00')).replace(tzinfo=None)`
is `>= cutoff_date`.  `datetime.now()` is an impure clock read and is modelled
as the explicit parameter `now`; naive datetimes are modelled as microsecond
counts on the proleptic Gregorian calendar (the same total order Python uses),
and `fromisoformat` raising `ValueError` on a malformed string is modelled by
`Except`. -/

/-- `paper.published.replace('Z', '+00:00')`. -/
def zFix : List Char → List Char
  | [] => []
  | c :: t =>
    if c = 'Z' then '+' :: '0' :: '0' :: ':' :: '0' :: '0' :: zFix t
    else c :: zFix t

def digitVal? (c : Char) : Option Nat :=
  if c.isDigit then some (c.toNat - 48) else none

def read2 : List Char → Option (Nat × List Char)
  | a :: b :: r => do
    let x ← digitVal? a
    let y ← digitVal? b
    pure (10 * x + y, r)
  | _ => none

def read4 : List Char → Option (Nat × List Char)
  | a :: b :: c :: d :: r => do
    let x ← digitVal? a
    let y ← digitVal? b
    let z ← digitVal? c
    let w ← digitVal? d
    pure (1000 * x + 100 * y + 10 * z + w, r)
  | _ => none

def expectChar (c : Char) : List Char → Option (List Char)
  | x :: r => if x = c then some r else none
  | [] => none

def isLeapYear (y : Nat) : Bool :=
  (y % 4 == 0 && !(y % 100 == 0)) || y % 400 == 0

/-- Cumulative days before month `m` (1-based), leap day included for `m > 2`. -/
def daysBeforeMonth (leap : Bool) (m : Nat) : Nat :=
  (match m with
    | 1 => 0 | 2 => 31 | 3 => 59 | 4 => 90 | 5 => 120 | 6 => 151
    | 7 => 181 | 8 => 212 | 9 => 243 | 10 => 273 | 11 => 304 | _ => 334)
  + (if leap && decide (3 ≤ m) then 1 else 0)

def daysInMonth (y m : Nat) : Nat :=
  match m with
  | 2 => if isLeapYear y then 29 else 28
  | 4 => 30 | 6 => 30 | 9 => 30 | 11 => 30
  | _ => 31

/-- Day count since 0001-01-01 in the proleptic Gregorian calendar
(`datetime.toordinal() - 1`). -/
def toOrdinalDay (y m d : Nat) : Nat :=
  365 * (y - 1) + (y - 1) / 4 - (y - 1) / 100 + (y - 1) / 400
    + daysBeforeMonth (isLeapYear y) m + (d - 1)

/-- One to six fractional-second digits, scaled to microseconds. -/
def readFrac (l : List Char) : Option (Nat × List Char) :=
  let digs := l.takeWhile (fun c => c.isDigit)
  let rest := l.dropWhile (fun c => c.isDigit)
  if digs.length = 0 ∨ 6 < digs.length then none
  else some (digs.foldl (fun a c => 10 * a + (c.toNat - 48)) 0 * 10 ^ (6 - digs.length), rest)

/-- `HH[:MM[:SS[.ffffff]]]`: seconds within the day plus microseconds. -/
def parseHMS (r : List Char) : Option (Nat × Nat × List Char) := do
  let (h, r1) ← read2 r
  if 23 < h then none else
  match r1 with
  | ':' :: r2 => do
    let (mi, r3) ← read2 r2
    if 59 < mi then none else
    match r3 with
    | ':' :: r4 => do
      let (s, r5) ← read2 r4
      if 59 < s then none else
      match r5 with
      | '.' :: r6 => do
        let (frac, r7) ← readFrac r6
        pure (h * 3600 + mi * 60 + s, frac, r7)
      | _ => pure (h * 3600 + mi * 60 + s, 0, r5)
    | _ => pure (h * 3600 + mi * 60, 0, r3)
  | _ => pure (h * 3600, 0, r1)

/-- A trailing `±HH:MM` UTC offset, or end of input.  The parsed offset is
validated and then dropped, matching `.replace(tzinfo=None)`. -/
def parseOffsetEnd : List Char → Option Unit
  | [] => some ()
  | sgn :: r =>
    if sgn = '+' ∨ sgn = '-' then do
      let (oh, r1) ← read2 r
      let r2 ← expectChar ':' r1
      let (om, r3) ← read2 r2
      if 23 < oh ∨ 59 < om then none else
      match r3 with
      | [] => some ()
      | _ => none
    else none

/-- `datetime.fromisoformat` on the `YYYY-MM-DD[*HH[:MM[:SS[.ffffff]]]][±HH:MM]`
forms (any single separator character, as Python accepts), returning the naive
timestamp in microseconds; `none` models `ValueError`. -/
def parseIsoNaive (l : List Char) : Option Nat := do
  let (y, r1) ← read4 l
  let r2 ← expectChar '-' r1
  let (mo, r3) ← read2 r2
  let r4 ← expectChar '-' r3
  let (d, r5) ← read2 r4
  if y < 1 ∨ mo < 1 ∨ 12 < mo ∨ d < 1 ∨ daysInMonth y mo < d then none else
  match r5 with
  | [] => some (toOrdinalDay y mo d * 86400 * 1000000)
  | _ :: r6 => do
    let (secs, frac, r7) ← parseHMS r6
    let _ ← parseOffsetEnd r7
    some ((toOrdinalDay y mo d * 86400 + secs) * 1000000 + frac)

/-- The parsed naive publication timestamp of a paper, as in
`datetime.fromisoformat(paper.published.replace('Z', '+00:00')).replace(tzinfo=None)`. -/
def pubTime (p : ArxivPaper) : Option Int :=
  (parseIsoNaive (zFix p.published.data)).map (fun n => (n : Int))

deriving instance DecidableEq for Except

/-- `datetime.max` (9999-12-31 23:59:59.999999) in microseconds; `datetime.min`
(0001-01-01 00:00:00) is 0 in this encoding. -/
def datetimeMaxMicros : Int :=
  ((toOrdinalDay 9999 12 31 * 86400 + 86399) * 1000000 + 999999 : Nat)

/-- `timedelta` accepts day magnitudes up to `timedelta.max.days`. -/
def timedeltaMaxDays : Nat := 999999999

/-- `cutoff_date = datetime.now() - timedelta(days=max_age_days)`:
`timedelta(days=d)` raises `OverflowError` beyond `timedelta.max`, and the
subtraction raises `OverflowError` when the result leaves the `datetime`
year range 1..9999.  CPython computes this once, before the loop. -/
def cutoffResult (max_age_days : Nat) (now : Int) : Except String Int :=
  if timedeltaMaxDays < max_age_days then
    .error ("OverflowError: days=" ++ toString max_age_days ++
      "; must have magnitude <= 999999999")
  else
    let c : Int := now - (max_age_days * 86400000000 : Nat)
    if c < 0 ∨ datetimeMaxMicros < c then .error "OverflowError: date value out of range"
    else .ok c

/-- The `for paper in papers` loop of `prune_old_papers`: keep the papers
whose parsed `published` is at or after the cutoff, preserving order; a paper
whose `published` does not parse raises `ValueError` (modelled as `.error`). -/
def pruneLoop (papers : List ArxivPaper) (cutoff : Int) :
    Except String (List ArxivPaper) :=
  match papers with
  | [] => .ok []
  | p :: t =>
    match pubTime p with
    | none => .error ("ValueError: Invalid isoformat string: " ++ p.published)
    | some tp =>
      match pruneLoop t cutoff with
      | .error e => .error e
      | .ok rest => .ok (if cutoff ≤ tp then p :: rest else rest)

/-- `prune_old_papers(papers, max_age_days)`: compute the cutoff (which can
itself raise `OverflowError`), then filter. -/
def prune_old_papers (papers : List ArxivPaper) (max_age_days : Nat) (now : Int) :
    Except String (List ArxivPaper) :=
  match cutoffResult max_age_days now with
  | .error e => .error e
  | .ok cutoff => pruneLoop papers cutoff

/-- The retention predicate: `published` parses and is at or after the cutoff. -/
def pruneKeep (cutoff : Int) (p : ArxivPaper) : Bool :=
  match pubTime p with
  | some t => decide (cutoff ≤ t)
  | none => false

/-! ## Concrete records and inputs for the prune claims -/

def wPruneNew : ArxivPaper :=
  ⟨"Recent", [], "", "2405.10001", "2024-05-01T00:00:00Z", "2024-05-01T00:00:00Z", []⟩

def wPruneOld : ArxivPaper :=
  ⟨"Ancient", [], "", "2301.10002", "2023-01-01T00:00:00Z", "2023-01-01T00:00:00Z", []⟩

/-- A `now` of 2024-06-01T00:00:00 in microseconds. -/
def wNow : Int := ((parseIsoNaive (zFix "2024-06-01T00:00:00Z".data)).getD 0 : Nat)

def cxBadPaper : ArxivPaper :=
  ⟨"Bad timestamp", [], "", "2406.00001", "yesterday", "yesterday", []⟩

/-! ### Text normalizer (`process_latex_text`)

The Python function is a fixed chain of `re.sub` passes.  Each pass is
modelled as a left-to-right scanner over the character list: at every
position a matcher either consumes a match (emitting its replacement) or the
scanner copies one character and moves on — exactly `re.sub`'s global,
non-overlapping, leftmost scan for these patterns, whose quantifiers are
negated single-character classes and hence backtrack-free. -/

def bslash : Char := Char.ofNat 92

def obr : Char := Char.ofNat 123

def cbr : Char := Char.ofNat 125

def qmark : Char := Char.ofNat 34

def apos : Char := Char.ofNat 39

def btick : Char := Char.ofNat 96

/-- Strip `p` from the front of `l`, returning the remainder. -/
def stripPre : List Char → List Char → Option (List Char)
  | [], l => some l
  | _ :: _, [] => none
  | p :: ps, c :: cs => if c = p then stripPre ps cs else none

/-- One `re.sub` pass: at each position try the matcher; on a match emit the
replacement and continue after the match, otherwise copy one character.  The
fuel is the number of scan steps; `runPass` supplies the list length, which
suffices because every step consumes at least one character. -/
def scanRewrite (try1 : List Char → Option (List Char × List Char)) :
    Nat → List Char → List Char
  | _, [] => []
  | 0, l => l
  | Nat.succ n, c :: cs =>
    match try1 (c :: cs) with
    | some (rep, rest) => rep ++ scanRewrite try1 n rest
    | none => c :: scanRewrite try1 n cs

def runPass (try1 : List Char → Option (List Char × List Char)) (l : List Char) :
    List Char :=
  scanRewrite try1 l.length l

/-- Python's `\w` for the `\b` boundary after a Greek-letter command name:
exact on ASCII (`[a-zA-Z0-9_]`); non-ASCII characters are treated as word
characters except the U+0300-U+036F combining diacritical marks (category Mn,
the marks this pipeline handles), which Python's `\w` excludes.  Non-ASCII
punctuation and other mark blocks are not distinguished by this model. -/
def isWordChar (c : Char) : Bool :=
  c.isAlphanum || c = '_' ||
  (decide (127 < c.toNat) && !(decide (0x300 ≤ c.toNat) && decide (c.toNat ≤ 0x36F)))

/-- One Greek pattern `\\<name>\b` → its Unicode letter. -/
def tryGreek (name : List Char) (rep : Char) (l : List Char) :
    Option (List Char × List Char) :=
  match stripPre (bslash :: name) l with
  | none => none
  | some rest =>
    match rest with
    | [] => some ([rep], [])
    | c :: _ => if isWordChar c then none else some ([rep], rest)

def greekList : List (List Char × Char) :=
  [("alpha".data, 'α'), ("beta".data, 'β'), ("gamma".data, 'γ'), ("delta".data, 'δ'),
   ("epsilon".data, 'ε'), ("zeta".data, 'ζ'), ("eta".data, 'η'), ("theta".data, 'θ'),
   ("iota".data, 'ι'), ("kappa".data, 'κ'), ("lambda".data, 'λ'), ("mu".data, 'μ'),
   ("nu".data, 'ν'), ("xi".data, 'ξ'), ("omicron".data, 'ο'), ("pi".data, 'π'),
   ("rho".data, 'ρ'), ("sigma".data, 'σ'), ("tau".data, 'τ'), ("upsilon".data, 'υ'),
   ("phi".data, 'φ'), ("chi".data, 'χ'), ("psi".data, 'ψ'), ("omega".data, 'ω'),
   ("Gamma".data, 'Γ'), ("Delta".data, 'Δ'), ("Theta".data, 'Θ'), ("Lambda".data, 'Λ'),
   ("Xi".data, 'Ξ'), ("Pi".data, 'Π'), ("Sigma".data, 'Σ'), ("Upsilon".data, 'Υ'),
   ("Phi".data, 'Φ'), ("Chi".data, 'Χ'), ("Psi".data, 'Ψ'), ("Omega".data, 'Ω')]

/-- The 36 Greek substitutions, applied in the source dict's order. -/
def greekPass (l : List Char) : List Char :=
  greekList.foldl (fun s p => runPass (tryGreek p.1 p.2) s) l

/-- Braced accent form `\<cmd>{<letters>}` → letters + combining mark. -/
def tryAccentBraced (cmd : Char) (mark : Char) (l : List Char) :
    Option (List Char × List Char) :=
  match stripPre [bslash, cmd, obr] l with
  | none => none
  | some r =>
    let content := r.takeWhile (fun c => c ≠ cbr)
    let rest := r.dropWhile (fun c => c ≠ cbr)
    match rest with
    | _ :: rest' => if content.isEmpty then none else some (content ++ [mark], rest')
    | [] => none

/-- Single-letter accent form `\<cmd><letter>` → letter + combining mark. -/
def tryAccentSingle (cmd : Char) (mark : Char) (l : List Char) :
    Option (List Char × List Char) :=
  match stripPre [bslash, cmd] l with
  | none => none
  | some (c :: rest) => if c.isAlpha then some ([c, mark], rest) else none
  | some [] => none

/-- The nine accents in the source dict's order: acute, grave, circumflex,
diaeresis, tilde, macron, breve, caron, cedilla. -/
def accentPairs : List (Char × Char) :=
  [(apos, Char.ofNat 0x301), (btick, Char.ofNat 0x300), ('^', Char.ofNat 0x302),
   (qmark, Char.ofNat 0x308), ('~', Char.ofNat 0x303), ('=', Char.ofNat 0x304),
   ('u', Char.ofNat 0x306), ('v', Char.ofNat 0x30C), ('c', Char.ofNat 0x327)]

/-- The 18 accent substitutions (braced form before single-letter form for
each accent, as in the source dict). -/
def accentPass (l : List Char) : List Char :=
  accentPairs.foldl
    (fun s p => runPass (tryAccentSingle p.1 p.2) (runPass (tryAccentBraced p.1 p.2) s)) l

/-- A literal substitution (`re.sub` with a literal pattern). -/
def tryLit (pat rep : List Char) (l : List Char) : Option (List Char × List Char) :=
  (stripPre pat l).map (fun rest => (rep, rest))

def cmdTexttt : List Char := [bslash, 't', 'e', 'x', 't', 't', 't', obr]

/-- The inner rewrite `\\texttt\{([^}]+)\}` → `\text{\1}` applied to a
matched math span; the argument must be nonempty (`[^}]+`), unlike the outer
search pattern's `[^}]*`. -/
def tryTextttInner (l : List Char) : Option (List Char × List Char) :=
  match stripPre cmdTexttt l with
  | none => none
  | some r =>
    let content := r.takeWhile (fun c => c ≠ cbr)
    let rest := r.dropWhile (fun c => c ≠ cbr)
    match rest with
    | _ :: rest' =>
      if content.isEmpty then none
      else some (bslash :: 't' :: 'e' :: 'x' :: 't' :: obr :: (content ++ [cbr]), rest')
    | [] => none

/-- All splits `pre ++ suf` of the text after an opening `$` where `suf`
starts with `\texttt{` and `pre` is `$`-free: the positions at which the
pattern's `[^$]*` can hand over to `\\texttt\{`.  The scan stops at the first
`$`, which `[^$]*` cannot cross. -/
def candidateSplits : List Char → List (List Char × List Char)
  | [] => []
  | c :: cs =>
    if c = '$' then []
    else
      let deeper := (candidateSplits cs).map (fun p => (c :: p.1, p.2))
      if (stripPre cmdTexttt (c :: cs)).isSome then ([], c :: cs) :: deeper else deeper

/-- Try the candidates of `\$[^$]*\\texttt\{[^}]*\}[^$]*\$` in the regex
engine's backtracking order (greedy `[^$]*`, so the latest `\texttt{` first):
for each, `[^}]*` runs to the first `}` — possibly across an inner `$` — and
`[^$]*` then runs to the next `$`.  On success, the whole match (the `$`
delimiters included) is rewritten by the inner `\texttt` → `\text`
substitution, exactly as `replace_texttt_in_math` does with `group(0)`. -/
def mathTextttAt : List (List Char × List Char) → Option (List Char × List Char)
  | [] => none
  | (pre, suf) :: more =>
    match stripPre cmdTexttt suf with
    | none => mathTextttAt more
    | some after =>
      let content := after.takeWhile (fun c => c ≠ cbr)
      let r2 := after.dropWhile (fun c => c ≠ cbr)
      match r2 with
      | _ :: r3 =>
        let tl := r3.takeWhile (fun c => c ≠ '$')
        let r4 := r3.dropWhile (fun c => c ≠ '$')
        match r4 with
        | _ :: rest =>
          some (runPass tryTextttInner
            ('$' :: (pre ++ cmdTexttt ++ content ++ cbr :: (tl ++ ['$']))), rest)
        | [] => mathTextttAt more
      | [] => mathTextttAt more

/-- The `\$[^$]*\\texttt\{[^}]*\}[^$]*\$` pass: rewrite `\texttt` to `\text`
inside a single-`$` math span, with the pattern's backtracking modelled by
trying the `\texttt{` candidates latest-first. -/
def tryMathTexttt (l : List Char) : Option (List Char × List Char) :=
  match l with
  | '$' :: r => mathTextttAt (candidateSplits r).reverse
  | _ => none

/-- A text-formatting command `\<name>{...}` → `pre ++ argument ++ post`. -/
def tryFmt (name : List Char) (pre post : List Char) (l : List Char) :
    Option (List Char × List Char) :=
  match stripPre (bslash :: (name ++ [obr])) l with
  | none => none
  | some r =>
    let content := r.takeWhile (fun c => c ≠ cbr)
    let rest := r.dropWhile (fun c => c ≠ cbr)
    match rest with
    | _ :: rest' => if content.isEmpty then none else some (pre ++ content ++ post, rest')
    | [] => none

/-- U+1E29, the corrupted character repaired to a chi. -/
def corruptHk : Char := Char.ofNat 0x1E29

/-- Python's `\s` for `str` patterns: exactly the characters for which
`str.isspace()` holds — 0x09-0x0D and 0x1C-0x20, plus NEL 0x85, NBSP 0xA0,
OGHAM 0x1680, the 0x2000-0x200A spaces, the 0x2028/0x2029 separators, and
0x202F, 0x205F, 0x3000. -/
def isPySpace (c : Char) : Bool :=
  let n := c.toNat
  (decide (9 ≤ n) && decide (n ≤ 13)) || (decide (28 ≤ n) && decide (n ≤ 32)) ||
  decide (n = 0x85) || decide (n = 0xA0) || decide (n = 0x1680) ||
  (decide (0x2000 ≤ n) && decide (n ≤ 0x200A)) || decide (n = 0x2028) ||
  decide (n = 0x2029) || decide (n = 0x202F) || decide (n = 0x205F) ||
  decide (n = 0x3000)

/-- The URL body class `[^\s<>"'()]`. -/
def urlChar (c : Char) : Bool :=
  !(isPySpace c || c = '<' || c = '>' || c = qmark || c = apos || c = '(' || c = ')')

def lbHrefQ : List Char := [qmark, '=', 'f', 'e', 'r', 'h']

def lbHrefA : List Char := [apos, '=', 'f', 'e', 'r', 'h']

def lbSrcQ : List Char := [qmark, '=', 'c', 'r', 's']

def lbSrcA : List Char := [apos, '=', 'c', 'r', 's']

/-- The four negative lookbehinds `href="`, `href='`, `src="`, `src='`;
`prev` is the already-scanned text, most recent character first. -/
def lookbehindOk (prev : List Char) : Bool :=
  !((stripPre lbHrefQ prev).isSome || (stripPre lbHrefA prev).isSome ||
    (stripPre lbSrcQ prev).isSome || (stripPre lbSrcA prev).isSome)

def httpsPat : List Char := ['h', 't', 't', 'p', 's', ':', '/', '/']

def httpPat : List Char := ['h', 't', 't', 'p', ':', '/', '/']

/-- `https?://` at the head of the input. -/
def splitScheme (l : List Char) : Option (List Char × List Char) :=
  match stripPre httpsPat l with
  | some r => some (httpsPat, r)
  | none =>
    match stripPre httpPat l with
    | some r => some (httpPat, r)
    | none => none

/-- Attempt the URL pattern at the current position: lookbehind, scheme, then
the maximal nonempty run of URL characters. -/
def tryUrl (prev l : List Char) : Option (List Char × List Char) :=
  if lookbehindOk prev then
    match splitScheme l with
    | some (sch, r) =>
      let run := r.takeWhile urlChar
      let rest := r.dropWhile urlChar
      if run.isEmpty then none else some (sch ++ run, rest)
    | none => none
  else none

/-- The anchor replacement `<a href="\1" target="_blank" rel="noopener">\1</a>`. -/
def wrapUrl (u : List Char) : List Char :=
  "<a href=\"".data ++ u ++ "\" target=\"_blank\" rel=\"noopener\">".data ++ u ++ "</a>".data

/-- The URL pass scanner; `prev` collects the original scanned characters for
the lookbehind (most recent first), as `re.sub` matches against the original
string. -/
def linkifyGo : Nat → List Char → List Char → List Char
  | _, _, [] => []
  | 0, _, l => l
  | Nat.succ n, prev, c :: cs =>
    match tryUrl prev (c :: cs) with
    | some (u, rest) => wrapUrl u ++ linkifyGo n (List.reverseAux u prev) rest
    | none => c :: linkifyGo n (c :: prev) cs

def urlPass (l : List Char) : List Char := linkifyGo l.length [] l

/-- `u` is a full URL token: a scheme followed by a nonempty run of URL
characters. -/
def isUrlToken (u : List Char) : Bool :=
  match splitScheme u with
  | some (_, r) => !r.isEmpty && r.all urlChar
  | none => false

/-- `\$(<[^>]+>[^<]*</[^>]+>)\$` → the tag pair without the `$` delimiters. -/
def tryCollapseTag (l : List Char) : Option (List Char × List Char) :=
  match l with
  | '$' :: '<' :: r1 =>
    let t1 := r1.takeWhile (fun c => c ≠ '>')
    let r2 := r1.dropWhile (fun c => c ≠ '>')
    if t1.isEmpty then none else
    match r2 with
    | _ :: r3 =>
      let mid := r3.takeWhile (fun c => c ≠ '<')
      let r4 := r3.dropWhile (fun c => c ≠ '<')
      match r4 with
      | '<' :: '/' :: r5 =>
        let t2 := r5.takeWhile (fun c => c ≠ '>')
        let r6 := r5.dropWhile (fun c => c ≠ '>')
        if t2.isEmpty then none else
        match r6 with
        | '>' :: '$' :: rest =>
          some ('<' :: (t1 ++ ('>' :: (mid ++ ('<' :: '/' :: (t2 ++ ['>']))))), rest)
        | _ => none
      | _ => none
    | [] => none
  | _ => none

def codeOpen : List Char := "$<code>".data

def codeClose : List Char := "</code>$".data

/-- `\$<code>([^<]*)</code>\$` → `<code>\1</code>`. -/
def tryCollapseCode (l : List Char) : Option (List Char × List Char) :=
  match stripPre codeOpen l with
  | none => none
  | some r =>
    let mid := r.takeWhile (fun c => c ≠ '<')
    let r2 := r.dropWhile (fun c => c ≠ '<')
    match stripPre codeClose r2 with
    | some rest => some ("<code>".data ++ mid ++ "</code>".data, rest)
    | none => none

/-- The full substitution chain of `process_latex_text`, in source order. -/
def latexPipeline (l : List Char) : List Char :=
  let l := greekPass l
  let l := accentPass l
  let l := runPass tryMathTexttt l
  let l := runPass (tryLit [bslash, '_'] ['_']) l
  let l := runPass (tryLit [bslash, '%'] ['%']) l
  let l := runPass (tryFmt "emph".data "<em>".data "</em>".data) l
  let l := runPass (tryFmt "textbf".data "<strong>".data "</strong>".data) l
  let l := runPass (tryFmt "textit".data "<em>".data "</em>".data) l
  let l := runPass
    (tryFmt "textsc".data "<span style=\"font-variant: small-caps;\">".data "</span>".data) l
  let l := runPass (tryFmt "texttt".data "<code>".data "</code>".data) l
  let l := runPass
    (tryFmt "textrm".data "<span style=\"font-style: normal;\">".data "</span>".data) l
  let l := runPass (tryLit [corruptHk, 'i'] ['χ']) l
  let l := runPass (tryLit [corruptHk] ['χ']) l
  let l := urlPass l
  let l := runPass tryCollapseTag l
  let l := runPass tryCollapseCode l
  l

/-- `process_latex_text(text)`. -/
def process_latex_text (s : String) : String := String.mk (latexPipeline s.data)

/-- Substring occurrence test, used to state what an output does not contain. -/
def occursIn (pat : List Char) : List Char → Bool
  | [] => (stripPre pat []).isSome
  | c :: t => (stripPre pat (c :: t)).isSome || occursIn pat t

/-! ## Theorems -/


/-! ## Dictionary lemmas for the merge engine -/

theorem keysOf_append (l1 l2 : List ArxivPaper) :
    keysOf (l1 ++ l2) = keysOf l1 ++ keysOf l2 := List.map_append _ _ _

theorem setPaper_of_not_mem {l : List ArxivPaper} {p : ArxivPaper}
    (h : p.arxiv_id ∉ keysOf l) : setPaper l p = l ++ [p] := by
  induction l with
  | nil => rfl
  | cons q t ih =>
    simp only [keysOf, List.map_cons, List.mem_cons, not_or] at h
    simp only [setPaper, if_neg (Ne.symm h.1)]
    rw [ih (by simpa [keysOf] using h.2)]
    simp

theorem mem_keysOf_setPaper {l : List ArxivPaper} {p : ArxivPaper} {x : String} :
    x ∈ keysOf (setPaper l p) ↔ x ∈ keysOf l ∨ x = p.arxiv_id := by
  induction l with
  | nil => simp [setPaper, keysOf]
  | cons q t ih =>
    by_cases h : q.arxiv_id = p.arxiv_id
    · simp only [setPaper, if_pos h, keysOf, List.map_cons, List.mem_cons]
      constructor
      · rintro (rfl | hx)
        · exact Or.inr rfl
        · exact Or.inl (Or.inr hx)
      · rintro ((rfl | hx) | rfl)
        · exact Or.inl h
        · exact Or.inr hx
        · exact Or.inl rfl
    · simp only [setPaper, if_neg h, keysOf, List.map_cons, List.mem_cons]
      rw [show (x ∈ List.map (fun p => p.arxiv_id) (setPaper t p)) ↔
          (x ∈ keysOf (setPaper t p)) from Iff.rfl, ih]
      simp only [keysOf]
      tauto

theorem nodup_keysOf_setPaper {l : List ArxivPaper} {p : ArxivPaper}
    (h : (keysOf l).Nodup) : (keysOf (setPaper l p)).Nodup := by
  induction l with
  | nil => simp [setPaper, keysOf]
  | cons q t ih =>
    simp only [keysOf, List.map_cons, List.nodup_cons] at h
    by_cases hq : q.arxiv_id = p.arxiv_id
    · simp only [setPaper, if_pos hq, keysOf, List.map_cons, List.nodup_cons]
      exact ⟨fun hx => h.1 (hq ▸ hx), h.2⟩
    · simp only [setPaper, if_neg hq, keysOf, List.map_cons, List.nodup_cons]
      refine ⟨fun hx => ?_, ih h.2⟩
      rcases mem_keysOf_setPaper.mp hx with hx | hx
      · exact h.1 hx
      · exact hq hx

theorem mem_setPaper {l : List ArxivPaper} {p q : ArxivPaper}
    (h : q ∈ setPaper l p) : q ∈ l ∨ q = p := by
  induction l with
  | nil => simpa [setPaper] using h
  | cons a t ih =>
    by_cases ha : a.arxiv_id = p.arxiv_id
    · simp only [setPaper, if_pos ha, List.mem_cons] at h
      rcases h with rfl | h
      · exact Or.inr rfl
      · exact Or.inl (List.mem_cons_of_mem _ h)
    · simp only [setPaper, if_neg ha, List.mem_cons] at h
      rcases h with rfl | h
      · exact Or.inl (List.mem_cons_self _ _)
      · rcases ih h with h | h
        · exact Or.inl (List.mem_cons_of_mem _ h)
        · exact Or.inr h

theorem findPaper_setPaper_self (l : List ArxivPaper) (p : ArxivPaper) :
    findPaper (setPaper l p) p.arxiv_id = some p := by
  induction l with
  | nil => simp [setPaper, findPaper, List.find?]
  | cons q t ih =>
    by_cases hq : q.arxiv_id = p.arxiv_id
    · simp [setPaper, if_pos hq, findPaper, List.find?]
    · simpa [setPaper, if_neg hq, findPaper, List.find?, hq] using ih

theorem findPaper_setPaper_other {l : List ArxivPaper} {p : ArxivPaper} {x : String}
    (h : p.arxiv_id ≠ x) : findPaper (setPaper l p) x = findPaper l x := by
  induction l with
  | nil =>
    simp only [setPaper, findPaper]
    rw [List.find?_cons_of_neg _ (by simp [h]), List.find?_nil]
  | cons q t ih =>
    by_cases hq : q.arxiv_id = p.arxiv_id
    · simp only [setPaper, if_pos hq, findPaper]
      rw [List.find?_cons_of_neg _ (by simp [h]), List.find?_cons_of_neg _ (by simp [hq, h])]
    · simp only [setPaper, if_neg hq, findPaper]
      by_cases hqx : q.arxiv_id = x
      · rw [List.find?_cons_of_pos _ (by simp [hqx]), List.find?_cons_of_pos _ (by simp [hqx])]
      · rw [List.find?_cons_of_neg _ (by simp [hqx]), List.find?_cons_of_neg _ (by simp [hqx])]
        exact ih

theorem findPaper_eq_some_of_mem {l : List ArxivPaper} {q : ArxivPaper}
    (hnd : (keysOf l).Nodup) (hq : q ∈ l) : findPaper l q.arxiv_id = some q := by
  induction l with
  | nil => cases hq
  | cons a t ih =>
    simp only [keysOf, List.map_cons, List.nodup_cons] at hnd
    rcases List.mem_cons.mp hq with rfl | hq
    · exact List.find?_cons_of_pos _ (by simp)
    · have ha : a.arxiv_id ≠ q.arxiv_id := by
        intro he
        exact hnd.1 (he ▸ List.mem_map_of_mem (fun p => p.arxiv_id) hq)
      rw [findPaper, List.find?_cons_of_neg _ (by simp [ha])]
      exact ih hnd.2 hq

theorem findPaper_eq_none_iff {l : List ArxivPaper} {x : String} :
    findPaper l x = none ↔ x ∉ keysOf l := by
  simp only [findPaper, List.find?_eq_none, keysOf, List.mem_map, beq_iff_eq]
  constructor
  · rintro h ⟨q, hq, rfl⟩
    exact h q hq rfl
  · rintro h q hq rfl
    exact h ⟨q, hq, rfl⟩

theorem nodup_keysOf_mergeStep {d : List ArxivPaper} {np : ArxivPaper}
    (h : (keysOf d).Nodup) : (keysOf (mergeStep d np)).Nodup := by
  unfold mergeStep
  split
  next hf =>
    rw [keysOf_append, List.nodup_append]
    refine ⟨h, List.nodup_singleton _, ?_⟩
    intro a ha hb
    simp only [keysOf, List.map_cons, List.map_nil, List.mem_singleton] at hb
    exact findPaper_eq_none_iff.mp hf (hb ▸ ha)
  next ex hf =>
    split
    · exact nodup_keysOf_setPaper h
    · exact h

theorem mem_keysOf_mergeStep {d : List ArxivPaper} {np : ArxivPaper} {x : String} :
    x ∈ keysOf (mergeStep d np) ↔ x ∈ keysOf d ∨ x = np.arxiv_id := by
  unfold mergeStep
  split
  next hf => simp [keysOf_append, keysOf]
  next ex hf =>
    have hmem : np.arxiv_id ∈ keysOf d := by
      by_contra hc
      rw [findPaper_eq_none_iff.mpr hc] at hf
      cases hf
    split
    · exact mem_keysOf_setPaper
    · constructor
      · exact Or.inl
      · rintro (hx | rfl)
        · exact hx
        · exact hmem

theorem mem_mergeStep {d : List ArxivPaper} {np q : ArxivPaper}
    (h : q ∈ mergeStep d np) : q ∈ d ∨ q = np := by
  unfold mergeStep at h
  split at h
  · simpa using List.mem_append.mp h
  · split at h
    · exact mem_setPaper h
    · exact Or.inl h

theorem findPaper_mergeStep_other {d : List ArxivPaper} {np : ArxivPaper} {x : String}
    (h : np.arxiv_id ≠ x) : findPaper (mergeStep d np) x = findPaper d x := by
  unfold mergeStep
  split
  next hf =>
    unfold findPaper
    rw [List.find?_append]
    cases hd : List.find? (fun q => q.arxiv_id == x) d with
    | some q => simp
    | none =>
      simp only [Option.none_or]
      rw [List.find?_cons_of_neg _ (by simp [h]), List.find?_nil]
  next ex hf =>
    split
    · exact findPaper_setPaper_other h
    · rfl

/-! ## Lemmas about the two folds inside `merge_papers` -/

theorem foldl_setPaper_eq_append :
    ∀ (A d : List ArxivPaper), (keysOf (d ++ A)).Nodup →
      List.foldl setPaper d A = d ++ A
  | [], d, _ => by simp
  | a :: A', d, h => by
    have hnd : a.arxiv_id ∉ keysOf d := by
      rw [keysOf_append] at h
      rcases List.nodup_append.mp h with ⟨_, _, hdisj⟩
      intro hx
      exact hdisj hx (by simp [keysOf])
    rw [List.foldl_cons, setPaper_of_not_mem hnd, foldl_setPaper_eq_append A' (d ++ [a])
      (by simpa using h)]
    simp

theorem mem_foldl_setPaper :
    ∀ {A d : List ArxivPaper} {q : ArxivPaper},
      q ∈ List.foldl setPaper d A → q ∈ d ∨ q ∈ A
  | [], _, _, h => Or.inl h
  | a :: A', d, q, h => by
    rcases mem_foldl_setPaper (A := A') h with h' | h'
    · rcases mem_setPaper h' with h'' | h''
      · exact Or.inl h''
      · exact Or.inr (h'' ▸ List.mem_cons_self _ _)
    · exact Or.inr (List.mem_cons_of_mem _ h')

theorem mem_keysOf_foldl_setPaper :
    ∀ {A d : List ArxivPaper} {x : String},
      x ∈ keysOf (List.foldl setPaper d A) ↔ x ∈ keysOf d ∨ x ∈ keysOf A
  | [], _, _ => by simp [keysOf]
  | a :: A', d, x => by
    rw [List.foldl_cons, mem_keysOf_foldl_setPaper (A := A'), mem_keysOf_setPaper]
    simp only [keysOf, List.map_cons, List.mem_cons]
    tauto

theorem nodup_keysOf_foldl_setPaper :
    ∀ {A d : List ArxivPaper}, (keysOf d).Nodup →
      (keysOf (List.foldl setPaper d A)).Nodup
  | [], _, h => h
  | _ :: A', _, h =>
    nodup_keysOf_foldl_setPaper (A := A') (nodup_keysOf_setPaper h)

theorem nodup_keysOf_foldl_mergeStep :
    ∀ {B d : List ArxivPaper}, (keysOf d).Nodup →
      (keysOf (List.foldl mergeStep d B)).Nodup
  | [], _, h => h
  | _ :: B', _, h =>
    nodup_keysOf_foldl_mergeStep (B := B') (nodup_keysOf_mergeStep h)

theorem mem_foldl_mergeStep :
    ∀ {B d : List ArxivPaper} {q : ArxivPaper},
      q ∈ List.foldl mergeStep d B → q ∈ d ∨ q ∈ B
  | [], _, _, h => Or.inl h
  | b :: B', d, q, h => by
    rcases mem_foldl_mergeStep (B := B') h with h' | h'
    · rcases mem_mergeStep h' with h'' | h''
      · exact Or.inl h''
      · exact Or.inr (h'' ▸ List.mem_cons_self _ _)
    · exact Or.inr (List.mem_cons_of_mem _ h')

theorem mem_keysOf_foldl_mergeStep :
    ∀ {B d : List ArxivPaper} {x : String},
      x ∈ keysOf (List.foldl mergeStep d B) ↔ x ∈ keysOf d ∨ x ∈ keysOf B
  | [], _, _ => by simp [keysOf]
  | b :: B', d, x => by
    rw [List.foldl_cons, mem_keysOf_foldl_mergeStep (B := B'), mem_keysOf_mergeStep]
    simp only [keysOf, List.map_cons, List.mem_cons]
    tauto

theorem findPaper_foldl_mergeStep_other :
    ∀ {B d : List ArxivPaper} {x : String}, (∀ q ∈ B, q.arxiv_id ≠ x) →
      findPaper (List.foldl mergeStep d B) x = findPaper d x
  | [], _, _, _ => rfl
  | b :: B', d, x, h => by
    rw [List.foldl_cons,
      findPaper_foldl_mergeStep_other (B := B') (fun q hq => h q (List.mem_cons_of_mem _ hq)),
      findPaper_mergeStep_other (h b (List.mem_cons_self _ _))]

/-! ## Merge-level helper lemmas -/

/-- The id sequence of the merge output has no duplicates. -/
theorem merge_keys_nodup (A B : List ArxivPaper) : (keysOf (merge_papers A B)).Nodup := by
  have hdict : (keysOf (List.foldl mergeStep (List.foldl setPaper [] A) B)).Nodup :=
    nodup_keysOf_foldl_mergeStep (nodup_keysOf_foldl_setPaper (by simp [keysOf]))
  have hperm := List.perm_insertionSort laterPub (List.foldl mergeStep (List.foldl setPaper [] A) B)
  have := ((hperm.map (fun p : ArxivPaper => p.arxiv_id)).nodup_iff).mpr
    (by simpa [keysOf] using hdict)
  simpa [merge_papers, keysOf] using this

/-- The merge output is sorted by `published` descending. -/
theorem merge_sorted (A B : List ArxivPaper) : List.Sorted laterPub (merge_papers A B) :=
  List.sorted_insertionSort laterPub _

theorem mem_of_findPaper_eq_some {l : List ArxivPaper} {x : String} {q : ArxivPaper}
    (h : findPaper l x = some q) : q ∈ l :=
  List.mem_of_find?_eq_some h

/-- Splitting a duplicate-free incoming batch around a member: no other element
carries the member's id. -/
theorem keys_split {B1 B2 : List ArxivPaper} {r : ArxivPaper}
    (hB : (keysOf (B1 ++ r :: B2)).Nodup) :
    (∀ q ∈ B1, q.arxiv_id ≠ r.arxiv_id) ∧ (∀ q ∈ B2, q.arxiv_id ≠ r.arxiv_id) := by
  rw [keysOf_append] at hB
  rcases List.nodup_append.mp hB with ⟨h1, h2, hdisj⟩
  simp only [keysOf, List.map_cons, List.nodup_cons] at h2
  constructor
  · intro q hq he
    exact hdisj (List.mem_map_of_mem _ hq) (by rw [he]; exact List.mem_cons_self _ _)
  · intro q hq he
    exact h2.1 (he ▸ List.mem_map_of_mem _ hq)

theorem seed_eq_self {A : List ArxivPaper} (hA : (keysOf A).Nodup) :
    List.foldl setPaper [] A = A := by
  have := foldl_setPaper_eq_append A [] (by simpa using hA)
  simpa using this

theorem findPaper_mergeStep_self_newer {d : List ArxivPaper} {np ex : ArxivPaper}
    (hf : findPaper d np.arxiv_id = some ex) (hu : strLt ex.updated np.updated = true) :
    findPaper (mergeStep d np) np.arxiv_id = some np := by
  unfold mergeStep
  split
  next hf2 => rw [hf2] at hf; cases hf
  next ex2 hf2 =>
    rw [hf] at hf2
    obtain rfl : ex = ex2 := Option.some.inj hf2
    rw [if_pos hu]
    exact findPaper_setPaper_self _ _

theorem findPaper_mergeStep_self_stale {d : List ArxivPaper} {np ex : ArxivPaper}
    (hf : findPaper d np.arxiv_id = some ex) (hu : strLt ex.updated np.updated = false) :
    findPaper (mergeStep d np) np.arxiv_id = some ex := by
  unfold mergeStep
  split
  next hf2 => rw [hf2] at hf; cases hf
  next ex2 hf2 =>
    rw [hf] at hf2
    obtain rfl : ex = ex2 := Option.some.inj hf2
    rw [if_neg (by simp [hu])]
    exact hf

/-! ## Claim theorems: merge engine -/

/-- C1: deduplication invariant of merge — for every existing record set and
every incoming batch, the output of `merge_papers` contains no two entries
with the same `arxiv_id`. -/
theorem merge_dedup_invariant (A B : List ArxivPaper) :
    (keysOf (merge_papers A B)).Nodup :=
  merge_keys_nodup A B

/-- C7: the sequence returned by `merge_papers` is sorted by `published`
descending (`laterPub a b` says `b.published <= a.published`); records with
equal `published` may appear in any order. -/
theorem merge_output_sorted (A B : List ArxivPaper) :
    List.Sorted laterPub (merge_papers A B) :=
  merge_sorted A B

/-- C6: merging an empty incoming batch into a previous merge result returns
that result unchanged, order included. -/
theorem merge_idempotent_empty (A B : List ArxivPaper) :
    merge_papers (merge_papers A B) [] = merge_papers A B := by
  have hnd := merge_keys_nodup A B
  show List.insertionSort laterPub
      (List.foldl mergeStep (List.foldl setPaper [] (merge_papers A B)) []) = merge_papers A B
  rw [List.foldl_nil, seed_eq_self hnd]
  exact (merge_sorted A B).insertionSort_eq

/-- C10: merge fabricates nothing and loses no id — every output record is one
of the input records, and the output ids are exactly the union of the input
ids. -/
theorem merge_no_fabrication (A B : List ArxivPaper) :
    (∀ p, p ∈ merge_papers A B → p ∈ A ∨ p ∈ B) ∧
    (∀ x, x ∈ keysOf (merge_papers A B) ↔ x ∈ keysOf A ∨ x ∈ keysOf B) := by
  have hperm := List.perm_insertionSort laterPub
    (List.foldl mergeStep (List.foldl setPaper [] A) B)
  constructor
  · intro p hp
    have hp' : p ∈ List.foldl mergeStep (List.foldl setPaper [] A) B :=
      hperm.mem_iff.mp hp
    rcases mem_foldl_mergeStep hp' with h | h
    · rcases mem_foldl_setPaper h with h' | h'
      · cases h'
      · exact Or.inl h'
    · exact Or.inr h
  · intro x
    have hkp : List.Perm (keysOf (merge_papers A B))
        (keysOf (List.foldl mergeStep (List.foldl setPaper [] A) B)) := by
      simpa [keysOf] using hperm.map (fun p : ArxivPaper => p.arxiv_id)
    rw [hkp.mem_iff, mem_keysOf_foldl_mergeStep, mem_keysOf_foldl_setPaper]
    simp [keysOf]

/-- C10 witness at a concrete input. -/
theorem merge_no_fabrication_witness :
    wFabP ∈ [wFabP] ∨ wFabP ∈ ([] : List ArxivPaper) :=
  (merge_no_fabrication [wFabP] []).1 wFabP (by decide)

/-- C2 counterexample: with two incoming records sharing one id, the
strictly-newer incoming record `cxFreshR` satisfies the claim's hypothesis
against the stored record yet is absent from the merge output (the later
duplicate replaced it). -/
theorem merge_freshness_counterexample :
    (keysOf [cxFreshE]).Nodup ∧
    cxFreshE.arxiv_id = cxFreshR.arxiv_id ∧
    strLt cxFreshE.updated cxFreshR.updated = true ∧
    cxFreshR ∉ merge_papers [cxFreshE] [cxFreshR, cxFreshR2] := by
  refine ⟨by decide, by decide, by decide, ?_⟩
  decide

/-- C2 (amended): if additionally the incoming batch has pairwise-distinct
ids (as the fetch adapter guarantees), an incoming record strictly newer than
the stored record with the same id is contained in the merge output. -/
theorem merge_freshness_amended (A B : List ArxivPaper) (e r : ArxivPaper)
    (hA : (keysOf A).Nodup) (hB : (keysOf B).Nodup)
    (he : e ∈ A) (hr : r ∈ B) (hid : e.arxiv_id = r.arxiv_id)
    (hupd : strLt e.updated r.updated = true) :
    r ∈ merge_papers A B := by
  obtain ⟨B1, B2, rfl⟩ := List.append_of_mem hr
  obtain ⟨h1, h2⟩ := keys_split hB
  have hfindA : findPaper A r.arxiv_id = some e := by
    rw [← hid]
    exact findPaper_eq_some_of_mem hA he
  have hd1 : findPaper (List.foldl mergeStep A B1) r.arxiv_id = some e := by
    rw [findPaper_foldl_mergeStep_other h1, hfindA]
  have hstep : findPaper (mergeStep (List.foldl mergeStep A B1) r) r.arxiv_id = some r :=
    findPaper_mergeStep_self_newer hd1 hupd
  have hfinal : findPaper (List.foldl mergeStep A (B1 ++ r :: B2)) r.arxiv_id = some r := by
    rw [List.foldl_append, List.foldl_cons, findPaper_foldl_mergeStep_other h2, hstep]
  have hmem : r ∈ List.foldl mergeStep A (B1 ++ r :: B2) :=
    mem_of_findPaper_eq_some hfinal
  show r ∈ List.insertionSort laterPub
    (List.foldl mergeStep (List.foldl setPaper [] A) (B1 ++ r :: B2))
  rw [seed_eq_self hA]
  exact (List.perm_insertionSort laterPub _).mem_iff.mpr hmem

/-- C2 amended witness at a concrete input. -/
theorem merge_freshness_amended_witness :
    wFreshR ∈ merge_papers [wFreshE] [wFreshR] :=
  merge_freshness_amended [wFreshE] [wFreshR] wFreshE wFreshR
    (by decide) (by decide) (by decide) (by decide) (by decide) (by decide)

/-- C3 counterexample: with two incoming records sharing one id, the stored
record `cxStaleE` is newer than the first incoming record (the claim's
hypothesis) yet is not retained unchanged in the output — a later duplicate
with a fresher `updated` replaced it. -/
theorem merge_staleness_counterexample :
    (keysOf [cxStaleE]).Nodup ∧
    cxStaleE.arxiv_id = cxStaleR.arxiv_id ∧
    strLt cxStaleE.updated cxStaleR.updated = false ∧
    cxStaleE ∉ merge_papers [cxStaleE] [cxStaleR, cxStaleR2] := by
  refine ⟨by decide, by decide, by decide, ?_⟩
  decide

/-- C3 (amended): if additionally the incoming batch has pairwise-distinct
ids, an incoming record whose `updated` is less than or equal to the stored
record's (ties included) is discarded: the stored record is in the output
unchanged, and the incoming record can only appear if it equals the stored
one. -/
theorem merge_staleness_amended (A B : List ArxivPaper) (e r : ArxivPaper)
    (hA : (keysOf A).Nodup) (hB : (keysOf B).Nodup)
    (he : e ∈ A) (hr : r ∈ B) (hid : e.arxiv_id = r.arxiv_id)
    (hupd : strLt e.updated r.updated = false) :
    e ∈ merge_papers A B ∧ (r ∈ merge_papers A B → r = e) := by
  obtain ⟨B1, B2, rfl⟩ := List.append_of_mem hr
  obtain ⟨h1, h2⟩ := keys_split hB
  have hfindA : findPaper A r.arxiv_id = some e := by
    rw [← hid]
    exact findPaper_eq_some_of_mem hA he
  have hd1 : findPaper (List.foldl mergeStep A B1) r.arxiv_id = some e := by
    rw [findPaper_foldl_mergeStep_other h1, hfindA]
  have hstep : findPaper (mergeStep (List.foldl mergeStep A B1) r) r.arxiv_id = some e :=
    findPaper_mergeStep_self_stale hd1 hupd
  have hfinal : findPaper (List.foldl mergeStep A (B1 ++ r :: B2)) r.arxiv_id = some e := by
    rw [List.foldl_append, List.foldl_cons, findPaper_foldl_mergeStep_other h2, hstep]
  have hdictnodup : (keysOf (List.foldl mergeStep A (B1 ++ r :: B2))).Nodup :=
    nodup_keysOf_foldl_mergeStep hA
  have hmem : e ∈ List.foldl mergeStep A (B1 ++ r :: B2) :=
    mem_of_findPaper_eq_some hfinal
  have hperm : List.Perm (merge_papers A (B1 ++ r :: B2))
      (List.foldl mergeStep A (B1 ++ r :: B2)) := by
    show List.Perm (List.insertionSort laterPub
        (List.foldl mergeStep (List.foldl setPaper [] A) (B1 ++ r :: B2))) _
    rw [seed_eq_self hA]
    exact List.perm_insertionSort laterPub _
  refine ⟨hperm.mem_iff.mpr hmem, fun hrmem => ?_⟩
  have hrdict : r ∈ List.foldl mergeStep A (B1 ++ r :: B2) := hperm.mem_iff.mp hrmem
  have := findPaper_eq_some_of_mem hdictnodup hrdict
  rw [hfinal] at this
  exact (Option.some.inj this).symm

/-- C3 amended witness at a concrete input. -/
theorem merge_staleness_amended_witness :
    wStaleE ∈ merge_papers [wStaleE] [wStaleR] ∧
    (wStaleR ∈ merge_papers [wStaleE] [wStaleR] → wStaleR = wStaleE) :=
  merge_staleness_amended [wStaleE] [wStaleR] wStaleE wStaleR
    (by decide) (by decide) (by decide) (by decide) (by decide) (by decide)

/-! ## Prune lemmas and claim theorems -/

/-- When every `published` parses, the prune loop succeeds and equals the
order-preserving filter by the cutoff. -/
theorem pruneLoop_eq_filter {papers : List ArxivPaper} {cutoff : Int}
    (h : ∀ p ∈ papers, (pubTime p).isSome) :
    pruneLoop papers cutoff =
      Except.ok (papers.filter (fun p => pruneKeep cutoff p)) := by
  induction papers with
  | nil => rfl
  | cons p t ih =>
    obtain ⟨tp, htp⟩ := Option.isSome_iff_exists.mp (h p (List.mem_cons_self _ _))
    have ht := ih (fun q hq => h q (List.mem_cons_of_mem _ hq))
    unfold pruneLoop
    rw [htp, ht, List.filter_cons]
    by_cases hk : cutoff ≤ tp
    · simp [pruneKeep, htp, hk]
    · simp [pruneKeep, htp, hk]

/-- When the cutoff computation succeeds, `prune_old_papers` is its loop. -/
theorem prune_eq_loop {papers : List ArxivPaper} {d : Nat} {now c : Int}
    (hcut : cutoffResult d now = Except.ok c) :
    prune_old_papers papers d now = pruneLoop papers c := by
  unfold prune_old_papers
  rw [hcut]

/-- C5 counterexample: for `max_age_days = 1000000` and a 2024 `now`, the
cutoff `datetime.now() - timedelta(days=max_age_days)` leaves the `datetime`
range, so prune raises `OverflowError` before its loop and produces no output
at all — although the record satisfies the retention condition
`publishedAt >= now - maxAgeDays`. -/
theorem prune_retention_counterexample :
    prune_old_papers [wPruneNew] 1000000 wNow =
      Except.error "OverflowError: date value out of range" ∧
    pruneKeep (wNow - (1000000 * 86400000000 : Nat)) wPruneNew = true :=
  ⟨rfl, by decide⟩

/-- C5 (amended): for `maxAgeDays`/`now` whose cutoff computation succeeds and
records whose `published` timestamps parse, the output of prune is exactly
the input records with `published >= now - maxAgeDays` (as a `filter`, hence
keeping relative order); membership and order preservation are stated
explicitly. -/
theorem prune_retention_filter (papers : List ArxivPaper) (d : Nat) (now c : Int)
    (hcut : cutoffResult d now = Except.ok c)
    (h : ∀ p ∈ papers, (pubTime p).isSome) :
    prune_old_papers papers d now =
      Except.ok (papers.filter (fun p => pruneKeep c p)) ∧
    ∀ L, prune_old_papers papers d now = Except.ok L →
      (∀ p, p ∈ L ↔ p ∈ papers ∧ pruneKeep c p = true) ∧
      L.Sublist papers := by
  have hpl : prune_old_papers papers d now =
      Except.ok (papers.filter (fun p => pruneKeep c p)) := by
    rw [prune_eq_loop hcut]
    exact pruneLoop_eq_filter h
  refine ⟨hpl, fun L hL => ?_⟩
  rw [hpl] at hL
  obtain rfl : L = papers.filter (fun p => pruneKeep c p) :=
    (Except.ok.inj hL).symm
  exact ⟨fun p => List.mem_filter, List.filter_sublist _⟩

/-- C5 amended witness at a concrete input: one recent and one stale paper, a
90-day window, `now` = 2024-06-01. -/
theorem prune_retention_filter_witness :
    prune_old_papers [wPruneNew, wPruneOld] 90 wNow =
      Except.ok ([wPruneNew, wPruneOld].filter
        (fun p => pruneKeep 63845020800000000 p)) ∧
    ∀ L, prune_old_papers [wPruneNew, wPruneOld] 90 wNow = Except.ok L →
      (∀ p, p ∈ L ↔ p ∈ [wPruneNew, wPruneOld] ∧
        pruneKeep 63845020800000000 p = true) ∧
      L.Sublist [wPruneNew, wPruneOld] :=
  prune_retention_filter [wPruneNew, wPruneOld] 90 wNow 63845020800000000
    (by decide) (by decide)

/-- C9 counterexample: a record whose `published` string is malformed makes
`prune_old_papers` raise (`ValueError` from `datetime.fromisoformat`), and a
`max_age_days` beyond the `timedelta` range makes it raise `OverflowError`
even on the empty input — so prune is total neither on malformed timestamps
nor for every `maxAgeDays`. -/
theorem prune_totality_counterexample :
    prune_old_papers [cxBadPaper] 90 wNow =
      Except.error "ValueError: Invalid isoformat string: yesterday" ∧
    prune_old_papers ([] : List ArxivPaper) 1000000000 wNow =
      Except.error
        "OverflowError: days=1000000000; must have magnitude <= 999999999" :=
  ⟨rfl, rfl⟩

/-- C9 (amended): on records whose `published` timestamps parse and for
`maxAgeDays`/`now` whose cutoff stays within the `datetime`/`timedelta`
ranges — the only inputs the spec's boundary produces — prune always returns
a result, and the empty input yields the empty output. -/
theorem prune_totality_amended (papers : List ArxivPaper) (d : Nat) (now c : Int)
    (hcut : cutoffResult d now = Except.ok c)
    (h : ∀ p ∈ papers, (pubTime p).isSome) :
    (∃ L, prune_old_papers papers d now = Except.ok L) ∧
    prune_old_papers ([] : List ArxivPaper) d now = Except.ok [] :=
  ⟨⟨_, (prune_eq_loop hcut).trans (pruneLoop_eq_filter h)⟩,
    (prune_eq_loop hcut).trans rfl⟩

/-- C9 amended witness at a concrete input. -/
theorem prune_totality_amended_witness :
    (∃ L, prune_old_papers [wPruneNew] 90 wNow = Except.ok L) ∧
    prune_old_papers ([] : List ArxivPaper) 90 wNow = Except.ok [] :=
  prune_totality_amended [wPruneNew] 90 wNow 63845020800000000
    (by decide) (by decide)

/-! ## Claim theorems: normalizer evaluations -/

/-- C4 (code-bug evaluation): the unrecognized command `\vec` is not left
verbatim — the single-letter caron rule `\\v([a-zA-Z])` consumes `\ve`, so
`process_latex_text` turns `\vec{x}` into `ěc{x}` and no occurrence of
`\vec` survives in the output. -/
theorem latex_passthrough_code_bug :
    process_latex_text "\\vec\x7bx\x7d" = "e\u030Cc\x7bx\x7d" ∧
    occursIn "\\vec".data (process_latex_text "\\vec\x7bx\x7d").data = false := by
  decide

set_option maxRecDepth 8000 in
/-- C8 counterexample: the input holds the bare URL `https://x.com/a\_b`
(preceded by a space, hence not behind any `href=`/`src=` prefix), but the
escaped-underscore pass rewrites it before the URL pass runs, so the output
wraps the altered URL and contains no anchor whose `href` is the input's URL. -/
theorem url_anchoring_counterexample :
    process_latex_text "See https://x.com/a\\_b" =
      "See <a href=\"https://x.com/a_b\" target=\"_blank\" rel=\"noopener\">https://x.com/a_b</a>" ∧
    occursIn "href=\"https://x.com/a\\_b".data
      (process_latex_text "See https://x.com/a\\_b").data = false := by
  decide

/-! ## Lemmas for the URL pass -/

theorem stripPre_some : ∀ {p l r : List Char}, stripPre p l = some r → l = p ++ r
  | [], _, _, h => by simpa [stripPre] using Option.some.inj h
  | _ :: _, [], _, h => by cases h
  | p :: ps, c :: cs, r, h => by
    by_cases hc : c = p
    · simp only [stripPre, if_pos hc] at h
      rw [List.cons_append, ← stripPre_some h, hc]
    · simp [stripPre, hc] at h

theorem stripPre_append : ∀ (p r : List Char), stripPre p (p ++ r) = some r
  | [], _ => rfl
  | c :: p, r => by simp [stripPre, stripPre_append p r]

theorem splitScheme_some {l sch r : List Char} (h : splitScheme l = some (sch, r)) :
    l = sch ++ r ∧ (sch = httpsPat ∨ sch = httpPat) := by
  unfold splitScheme at h
  split at h
  next hs =>
    obtain ⟨rfl, rfl⟩ : sch = httpsPat ∧ r = _ := by
      have := Prod.mk.injEq .. ▸ Option.some.inj h
      exact ⟨this.1.symm, this.2.symm⟩
    exact ⟨stripPre_some hs, Or.inl rfl⟩
  next =>
    split at h
    next hs =>
      obtain ⟨rfl, rfl⟩ : sch = httpPat ∧ r = _ := by
        have := Prod.mk.injEq .. ▸ Option.some.inj h
        exact ⟨this.1.symm, this.2.symm⟩
      exact ⟨stripPre_some hs, Or.inr rfl⟩
    next => cases h

theorem splitScheme_append {u sch r : List Char}
    (h : splitScheme u = some (sch, r)) (b : List Char) :
    splitScheme (u ++ b) = some (sch, r ++ b) := by
  obtain ⟨rfl, hsch | hsch⟩ := splitScheme_some h <;> subst hsch
  · unfold splitScheme
    rw [List.append_assoc, stripPre_append]
  · have hnone : stripPre httpsPat ((httpPat ++ r) ++ b) = none := rfl
    unfold splitScheme
    rw [hnone, List.append_assoc, stripPre_append]

theorem takeWhile_all_append {p : Char → Bool} :
    ∀ {r b : List Char}, r.all p = true →
      (∀ c, b.head? = some c → p c = false) →
      (r ++ b).takeWhile p = r ∧ (r ++ b).dropWhile p = b
  | [], [], _, _ => by simp
  | [], c :: t, _, hb => by
    have := hb c rfl
    simp [List.takeWhile_cons, List.dropWhile_cons, this]
  | a :: r, b, hr, hb => by
    simp only [List.all_cons, Bool.and_eq_true] at hr
    have ih := takeWhile_all_append (r := r) (b := b) hr.2 hb
    simp [List.takeWhile_cons, List.dropWhile_cons, hr.1, ih.1, ih.2]

theorem schemeChars_url {sch : List Char} (h : sch = httpsPat ∨ sch = httpPat) :
    ∀ c ∈ sch, urlChar c = true := by
  rcases h with rfl | rfl <;> decide

theorem tryUrl_consumed {prev l u rest : List Char}
    (h : tryUrl prev l = some (u, rest)) :
    l = u ++ rest ∧ u ≠ [] ∧ ∀ c ∈ u, urlChar c = true := by
  unfold tryUrl at h
  split at h
  · split at h
    next sch r hs =>
      by_cases hrun : (r.takeWhile urlChar).isEmpty
      · rw [if_pos hrun] at h
        cases h
      · rw [if_neg hrun] at h
        obtain ⟨rfl, rfl⟩ : u = sch ++ r.takeWhile urlChar ∧ rest = r.dropWhile urlChar := by
          have := Prod.mk.injEq .. ▸ Option.some.inj h
          exact ⟨this.1.symm, this.2.symm⟩
        obtain ⟨hlr, hsch⟩ := splitScheme_some hs
        refine ⟨?_, ?_, ?_⟩
        · rw [hlr, List.append_assoc, List.takeWhile_append_dropWhile]
        · intro he
          rcases List.append_eq_nil.mp he with ⟨h1, _⟩
          rcases hsch with rfl | rfl <;> cases h1
        · intro c hc
          rcases List.mem_append.mp hc with hc | hc
          · exact schemeChars_url hsch c hc
          · exact List.mem_takeWhile_imp hc
    next => cases h
  · cases h

theorem optAll_not_url {o : Option Char}
    (h : Option.all (fun c => !urlChar c) o = true) :
    ∀ c, o = some c → urlChar c = false := by
  intro c hc
  subst hc
  simpa [Option.all] using h

theorem tryUrl_exact {prev u b : List Char} (hlb : lookbehindOk prev = true)
    (hu : isUrlToken u = true) (hb : ∀ c, b.head? = some c → urlChar c = false) :
    tryUrl prev (u ++ b) = some (u, b) := by
  unfold isUrlToken at hu
  split at hu
  next sch r hs =>
    simp only [Bool.and_eq_true, Bool.not_eq_true'] at hu
    obtain ⟨hlr, _⟩ := splitScheme_some hs
    have hsplit := splitScheme_append hs b
    have htk := takeWhile_all_append (r := r) (b := b) hu.2 hb
    simp only [tryUrl, hlb, if_true, hsplit, htk.1, htk.2, hu.1]
    rw [hlr]
    simp [hu.1]
  next => cases hu

theorem linkifyGo_cons_some {n : Nat} {prev cs u rest : List Char} {c : Char}
    (h : tryUrl prev (c :: cs) = some (u, rest)) :
    linkifyGo (n + 1) prev (c :: cs) =
      wrapUrl u ++ linkifyGo n (List.reverseAux u prev) rest := by
  simp only [linkifyGo, h]

theorem linkifyGo_cons_none {n : Nat} {prev cs : List Char} {c : Char}
    (h : tryUrl prev (c :: cs) = none) :
    linkifyGo (n + 1) prev (c :: cs) = c :: linkifyGo n (c :: prev) cs := by
  simp only [linkifyGo, h]

/-- The inductive core for C8: any full URL token flanked by non-URL
characters (or the ends of the text), and not sitting behind one of the four
lookbehind prefixes, is wrapped by the URL pass scanner. -/
theorem linkifyGo_wraps (u b : List Char) (hu : isUrlToken u = true)
    (hb : Option.all (fun c => !urlChar c) b.head? = true) :
    ∀ (fuel : Nat) (a prev : List Char), (a ++ u ++ b).length ≤ fuel →
      lookbehindOk (a.reverse ++ prev) = true →
      Option.all (fun c => !urlChar c) a.getLast? = true →
      ∃ x y, linkifyGo fuel prev (a ++ u ++ b) = x ++ wrapUrl u ++ y := by
  have hbne := optAll_not_url hb
  have hune : u ≠ [] := by
    intro he
    rw [he] at hu
    exact absurd hu (by decide)
  intro fuel
  induction fuel with
  | zero =>
    intro a prev hlen _ _
    exfalso
    have hnil : a ++ u ++ b = [] := List.length_eq_zero.mp (Nat.le_zero.mp hlen)
    obtain ⟨h1, _⟩ := List.append_eq_nil.mp hnil
    exact hune (List.append_eq_nil.mp h1).2
  | succ n ih =>
    intro a prev hlen hlb hlast
    cases a with
    | nil =>
      obtain ⟨uc, ur, rfl⟩ : ∃ c t, u = c :: t := by
        cases u with
        | nil => exact absurd rfl hune
        | cons c t => exact ⟨c, t, rfl⟩
      have htry : tryUrl prev ((uc :: ur) ++ b) = some (uc :: ur, b) :=
        tryUrl_exact (by simpa using hlb) hu hbne
      refine ⟨[], linkifyGo n (List.reverseAux (uc :: ur) prev) b, ?_⟩
      simp only [List.cons_append] at htry
      rw [show ([] : List Char) ++ (uc :: ur) ++ b = uc :: (ur ++ b) by simp,
        linkifyGo_cons_some htry]
      simp
    | cons c a' =>
      have hsplit : (c :: a') ++ u ++ b = c :: (a' ++ u ++ b) := by simp
      rw [hsplit] at hlen ⊢
      rcases htry : tryUrl prev (c :: (a' ++ u ++ b)) with _ | ⟨u', rest'⟩
      · have hlast' : Option.all (fun x => !urlChar x) a'.getLast? = true := by
          cases a' with
          | nil => rfl
          | cons d a'' =>
            rw [List.getLast?_cons_cons] at hlast
            exact hlast
        have hlb' : lookbehindOk (a'.reverse ++ (c :: prev)) = true := by
          have he : a'.reverse ++ (c :: prev) = (c :: a').reverse ++ prev := by
            simp [List.reverse_cons, List.append_assoc]
          rw [he]
          exact hlb
        obtain ⟨x, y, hxy⟩ := ih a' (c :: prev)
          (by simp only [List.length_cons] at hlen; omega) hlb' hlast'
        refine ⟨c :: x, y, ?_⟩
        rw [linkifyGo_cons_none htry, hxy]
        simp
      · obtain ⟨heq, hne, hall⟩ := tryUrl_consumed htry
        obtain ⟨g, hg⟩ : ∃ g, (c :: a').getLast? = some g :=
          ⟨_, List.getLast?_eq_getLast_of_ne_nil (by simp)⟩
        have hgurl : urlChar g = false := by
          have hh := hlast
          rw [hg] at hh
          simpa [Option.all] using hh
        have hgmem : g ∈ c :: a' := by
          have h1 := List.getLast?_eq_getLast_of_ne_nil (l := c :: a') (by simp)
          rw [hg] at h1
          exact (Option.some.inj h1) ▸ List.getLast_mem _
        have heq' : (c :: a') ++ (u ++ b) = u' ++ rest' := by
          rw [← heq]
          simp
        rcases List.append_eq_append_iff.mp heq' with ⟨ext, hext1, _⟩ | ⟨c', hc1, hc2⟩
        · exfalso
          have hgu : g ∈ u' := by
            rw [hext1]
            exact List.mem_append_left _ hgmem
          have hfalse := hall g hgu
          rw [hgurl] at hfalse
          cases hfalse
        · have hc'ne : c' ≠ [] := by
            intro he
            rw [he, List.append_nil] at hc1
            have hgu : g ∈ u' := hc1 ▸ hgmem
            have hfalse := hall g hgu
            rw [hgurl] at hfalse
            cases hfalse
          have hlast' : Option.all (fun x => !urlChar x) c'.getLast? = true := by
            have he : (c :: a').getLast? = c'.getLast? := by
              rw [hc1]
              exact List.getLast?_append_of_ne_nil u' hc'ne
            rw [← he]
            exact hlast
          have hlb' : lookbehindOk (c'.reverse ++ List.reverseAux u' prev) = true := by
            have he : c'.reverse ++ List.reverseAux u' prev = (c :: a').reverse ++ prev := by
              rw [List.reverseAux_eq, hc1, List.reverse_append]
              simp [List.append_assoc]
            rw [he]
            exact hlb
          have hlen' : (c' ++ u ++ b).length ≤ n := by
            have l1 : (c :: a').length = u'.length + c'.length := by
              rw [hc1, List.length_append]
            have l2 : 0 < u'.length := List.length_pos.mpr hne
            simp only [List.length_cons, List.length_append] at hlen l1 ⊢
            omega
          obtain ⟨x, y, hxy⟩ := ih c' (List.reverseAux u' prev) hlen' hlb' hlast'
          refine ⟨wrapUrl u' ++ x, y, ?_⟩
          have hrest : rest' = c' ++ u ++ b := by
            rw [hc2]
            simp
          rw [linkifyGo_cons_some htry, hrest, hxy]
          simp [List.append_assoc]

set_option maxRecDepth 8000 in
/-- C8 (amended): every bare `http(s)://` URL present when the URL-wrapping
step runs — a maximal URL token, not behind `href="`, `href='`, `src="` or
`src='` — is wrapped by that step in an anchor whose `href` is that URL; and
on the claim's example, where no earlier rule fires, `process_latex_text`
produces exactly the anchored text. -/
theorem url_anchoring_amended :
    (∀ a u b : List Char, isUrlToken u = true →
      lookbehindOk a.reverse = true →
      Option.all (fun c => !urlChar c) a.getLast? = true →
      Option.all (fun c => !urlChar c) b.head? = true →
      ∃ x y, urlPass (a ++ u ++ b) = x ++ wrapUrl u ++ y) ∧
    process_latex_text "Check https://arxiv.org/abs/1234" =
      "Check <a href=\"https://arxiv.org/abs/1234\" target=\"_blank\" rel=\"noopener\">https://arxiv.org/abs/1234</a>" := by
  constructor
  · intro a u b hu hlb hlast hb
    have h := linkifyGo_wraps u b hu hb (a ++ u ++ b).length a []
      le_rfl (by simpa using hlb) hlast
    simpa [urlPass] using h
  · decide

/-- C8 amended witness at a concrete input. -/
theorem url_anchoring_amended_witness :
    ∃ x y, urlPass ("Go ".data ++ "https://example.org/a".data ++ " now".data) =
      x ++ wrapUrl "https://example.org/a".data ++ y :=
  url_anchoring_amended.1 "Go ".data "https://example.org/a".data " now".data
    (by decide) (by decide) (by decide) (by decide)
